import Mathlib

/-!
# PicoClaw core — shallow embedding and verification

This file embeds the context-management core of the PicoClaw agent runtime
(packages `agent`, `skills`, `reload` of the repository) as executable Lean
definitions and proves, or refutes, the specified properties of the
context builder, bootstrap loader, pruner, tool-result truncation, skill
registry, and file-watcher event classification.

Modelling conventions:
* Go strings are modelled as Lean `String`s (or `List Char` where byte-level
  slicing matters); Go `len`/slicing is modelled by character counts, which
  agrees with Go's byte counts on the ASCII inputs used in every concrete
  instance below.
* Go `int` values that are genuinely unconstrained in the source
  (`KeepLastAssistants`, `MinPrunableToolChars`) are modelled as `Int`;
  values that are sizes/budgets are modelled as `Nat`.
* Go float arithmetic (`0.3`, `0.70`, `0.20` ratios) is modelled by exact
  rational arithmetic (`6 * w / 5`, `7 * c / 10`, `2 * c / 10` with `Nat`
  floor division); the float and rational computations agree at every
  concrete input used in a theorem below (checked against IEEE-754
  double semantics).
* Logging and the returned `PruningStats` are side information that the
  verified properties do not mention; the embedded functions return the
  message list only.
-/

namespace Picoclaw

/-- `providers.Message` — a conversational turn.  Fields not used by the
embedded functions (`ToolCalls`) are omitted. -/
structure Message where
  role : String
  content : String
  toolCallID : String
  deriving DecidableEq, Repr

instance : Inhabited Message := ⟨⟨"", "", ""⟩⟩

/-- `PruningMode` / `PruningConfig` (file `context_pruning.go`).  The `TTL`,
`SoftTrimRatio` and `HardClearRatio` fields are never read by the pruning
functions and are omitted. -/
structure PruningConfig where
  mode : String
  keepLastAssistants : Int
  minPrunableToolChars : Int
  deriving DecidableEq, Repr

def PruningModeOff : String := "off"

def PruningModeCacheTTL : String := "cache-ttl"

/-- The Go pattern

    for i := len(msgs)-1; i >= 0; i-- {
      if p(msgs[i]) {
        idxs = append([]int{i}, idxs...)
        if len(idxs) >= limit { break }
      }
    }

used by `pruneContextByTTL` (with `limit = KeepLastAssistants`) and
`pruneToolResults` (with `limit = 3`).  The `break` after an append is
rendered as the guard `acc.length < max limit 1`: the check runs only after
the first append, so `limit ≤ 0` collects exactly one index, like
`limit = 1`. -/
def collectLastIdx (msgs : List Message) (p : Message → Bool) (limit : Int) :
    List Nat :=
  (List.range msgs.length).foldr
    (fun i acc =>
      if p (msgs.getD i default) && ((acc.length : Int) < max limit 1) then
        i :: acc
      else acc) []

/-- The Go pattern `for i, msg := range msgs { if keep(i, msg) { out = append(out, msg) } }`,
with the running index made explicit. -/
def filterIdxFrom (keep : Nat → Message → Bool) : Nat → List Message → List Message
  | _, [] => []
  | i, m :: rest =>
    if keep i m then m :: filterIdxFrom keep (i + 1) rest
    else filterIdxFrom keep (i + 1) rest

/-- `pruneContextByTTL` (file `context_pruning.go`): find the earliest index
among the last `KeepLastAssistants` assistant messages, keep every system
message and every message at or after that index, drop the rest. -/
def pruneContextByTTL (messages : List Message) (config : PruningConfig) :
    List Message :=
  if config.mode != PruningModeCacheTTL then messages
  else if messages.isEmpty then messages
  else
    let lastAssistantIndices :=
      collectLastIdx messages (fun m => m.role == "assistant")
        config.keepLastAssistants
    let minKeepIndex := lastAssistantIndices.headD messages.length
    filterIdxFrom
      (fun i msg => msg.role == "system" || decide (minKeepIndex ≤ i))
      0 messages

/-- `pruneToolResults` (file `context_pruning.go`): drop every tool message
that is not among the last three tool messages and whose content is shorter
than `MinPrunableToolChars`. -/
def pruneToolResults (messages : List Message) (config : PruningConfig) :
    List Message :=
  if config.mode != PruningModeCacheTTL then messages
  else
    let recentToolResults := collectLastIdx messages (fun m => m.role == "tool") 3
    filterIdxFrom
      (fun i msg =>
        !(msg.role == "tool" && !(recentToolResults.contains i) &&
          decide ((msg.content.length : Int) < config.minPrunableToolChars)))
      0 messages

/-- `ApplyPruning` (file `context_pruning.go`): tool-result pruning followed
by TTL pruning, skipped entirely when the mode is `off`. -/
def applyPruning (messages : List Message) (config : PruningConfig) :
    List Message :=
  if config.mode == PruningModeOff then messages
  else pruneContextByTTL (pruneToolResults messages config) config

/-! ## List lemmas used by the pruning proofs -/

section ListLemmas

variable {α β : Type _}

theorem length_rtake (l : List α) (n : Nat) :
    (l.rtake n).length = min n l.length := by
  simp [List.rtake, Nat.min_comm]
  omega

theorem rtake_eq_self {l : List α} {n : Nat} (h : l.length ≤ n) :
    l.rtake n = l := by
  simp [List.rtake, Nat.sub_eq_zero_of_le h]

theorem rtake_cons (x : α) (s : List α) (n : Nat) :
    (x :: s).rtake n = if s.length < n then x :: s else s.rtake n := by
  by_cases h : s.length < n
  · simp only [if_pos h]
    exact rtake_eq_self (by simpa using h)
  · simp only [if_neg h]
    have h' : n ≤ s.length := Nat.le_of_not_lt h
    have : s.length + 1 - n = (s.length - n) + 1 := by omega
    simp [List.rtake, this]

theorem rtake_map (f : α → β) (s : List α) (n : Nat) :
    (s.map f).rtake n = (s.rtake n).map f := by
  simp [List.rtake, ← List.map_drop]

theorem rdrop_eq_nil {l : List α} {n : Nat} (h : l.length ≤ n) :
    l.rdrop n = [] := by
  simp [List.rdrop, Nat.sub_eq_zero_of_le h]

theorem rdrop_cons {s : List α} {n : Nat} (x : α) (h : n ≤ s.length) :
    (x :: s).rdrop n = x :: s.rdrop n := by
  have : s.length + 1 - n = (s.length - n) + 1 := by omega
  simp [List.rdrop, this]

theorem rdrop_append_right_le {u v : List α} {n : Nat} (h : v.length ≤ n) :
    (u ++ v).rdrop n = u.rdrop (n - v.length) := by
  have h1 : u.length + v.length - n ≤ u.length := by omega
  have h2 : u.length + v.length - n = u.length - (n - v.length) := by omega
  simp [List.rdrop, List.take_append_eq_append_take, Nat.sub_eq_zero_of_le h1,
    h2]

theorem mem_rdrop_append {x : α} {t : List α} {n : Nat} (w : List α)
    (hx : x ∈ t.rdrop n) : x ∈ (w ++ t).rdrop n := by
  by_cases h : t.length ≤ n
  · rw [rdrop_eq_nil h] at hx
    exact absurd hx (List.not_mem_nil x)
  · have h' : n ≤ t.length := Nat.le_of_not_lt (fun hlt => h (Nat.le_of_lt hlt))
    have : w.length + t.length - n = w.length + (t.length - n) := by omega
    rw [List.rdrop, List.length_append, this, List.take_append_eq_append_take]
    have : w.take (w.length + (t.length - n)) = w := by
      exact List.take_of_length_le (by omega)
    rw [this]
    refine List.mem_append_right _ ?_
    have : w.length + (t.length - n) - w.length = t.length - n := by omega
    rw [this]
    exact hx

end ListLemmas

/-! ## Index lists and the cut position

`collectLastIdx` is characterised as the last `max limit 1` members of the
ascending list of indices whose message satisfies `p`; the head of that
list (defaulting to the length) is the cut position both pruning passes
split the history at. -/

/-- Ascending list of the indices of `l` whose element satisfies `p`. -/
def pIdxs (p : Message → Bool) (l : List Message) : List Nat :=
  (List.range l.length).filter (fun i => p (l.getD i default))

/-- The split position: the earliest index among the last `n` `p`-positions,
defaulting to the list length when there is none. -/
def cutIdx (p : Message → Bool) (n : Nat) (l : List Message) : Nat :=
  ((pIdxs p l).rtake n).headD l.length

theorem pIdxs_nil (p : Message → Bool) : pIdxs p [] = [] := rfl

theorem pIdxs_cons (p : Message → Bool) (a : Message) (l : List Message) :
    pIdxs p (a :: l) =
      (if p a then [0] else []) ++ (pIdxs p l).map (· + 1) := by
  unfold pIdxs
  rw [List.length_cons, List.range_succ_eq_map]
  rw [List.filter_cons]
  have h2 : ((List.range l.length).map Nat.succ).filter
      (fun i => p ((a :: l).getD i default)) =
      ((List.range l.length).filter (fun i => p (l.getD i default))).map
        Nat.succ := by
    rw [List.filter_map]
    rfl
  rw [h2]
  by_cases hpa : p a
  · simp only [List.getD_cons_zero, hpa]
    rfl
  · simp only [List.getD_cons_zero, hpa]
    rfl

theorem length_pIdxs (p : Message → Bool) (l : List Message) :
    (pIdxs p l).length = l.countP p := by
  induction l with
  | nil => rfl
  | cons a l ih =>
    rw [pIdxs_cons, List.length_append, List.length_map, ih,
      List.countP_cons]
    by_cases hpa : p a <;> simp [hpa, Nat.add_comm]

theorem pIdxs_eq_nil_iff (p : Message → Bool) (l : List Message) :
    pIdxs p l = [] ↔ l.filter p = [] := by
  rw [← List.length_eq_zero, ← List.length_eq_zero, length_pIdxs,
    List.countP_eq_length_filter]

theorem mem_pIdxs {p : Message → Bool} {l : List Message} {i : Nat}
    (h : i ∈ pIdxs p l) : i < l.length ∧ p (l.getD i default) := by
  unfold pIdxs at h
  have h1 := List.of_mem_filter h
  have h2 := List.mem_range.mp (List.mem_of_mem_filter h)
  exact ⟨h2, by simpa using h1⟩

theorem pIdxs_sorted (p : Message → Bool) (l : List Message) :
    (pIdxs p l).Pairwise (· < ·) :=
  (List.pairwise_lt_range l.length).sublist (List.filter_sublist _)

/-- Fold form of the Go collect-last loop equals `rtake` of the filtered
index list. -/
theorem foldr_guard (xs : List Nat) (q : Nat → Bool) (n : Nat) :
    xs.foldr (fun i acc => if q i && decide (acc.length < n) then i :: acc
      else acc) [] = (xs.filter q).rtake n := by
  induction xs with
  | nil => simp [List.rtake]
  | cons x xs ih =>
    rw [List.foldr_cons, ih]
    by_cases hq : q x
    · rw [List.filter_cons_of_pos hq, rtake_cons]
      by_cases hlen : (xs.filter q).length < n
      · have hg : (q x && decide (((xs.filter q).rtake n).length < n)) =
            true := by
          rw [hq, rtake_eq_self (Nat.le_of_lt hlen)]
          simp [hlen]
        rw [if_pos hg, if_pos hlen, rtake_eq_self (Nat.le_of_lt hlen)]
      · have hg : (q x && decide (((xs.filter q).rtake n).length < n)) =
            false := by
          rw [length_rtake]
          have hm : ¬ (min n (xs.filter q).length < n) := by omega
          simp [hm]
        rw [if_neg (by simp [hg]), if_neg hlen]
    · rw [List.filter_cons_of_neg hq, if_neg (by simp [hq])]

theorem collectLastIdx_eq (l : List Message) (p : Message → Bool)
    (limit : Int) :
    collectLastIdx l p limit = (pIdxs p l).rtake (max limit 1).toNat := by
  unfold collectLastIdx pIdxs
  have hcond : ∀ (i : Nat) (acc : List Nat),
      (p (l.getD i default) && decide ((acc.length : Int) < max limit 1)) =
      (p (l.getD i default) && decide (acc.length < (max limit 1).toNat)) := by
    intro i acc
    congr 1
    by_cases h : (acc.length : Int) < max limit 1
    · rw [decide_eq_true h, decide_eq_true (Int.lt_toNat.mpr h)]
    · rw [decide_eq_false h, decide_eq_false (fun hc => h (Int.lt_toNat.mp hc))]
  have hfun : (fun (i : Nat) (acc : List Nat) =>
      if p (l.getD i default) && decide ((acc.length : Int) < max limit 1)
      then i :: acc else acc) =
      (fun (i : Nat) (acc : List Nat) =>
      if p (l.getD i default) && decide (acc.length < (max limit 1).toNat)
      then i :: acc else acc) := by
    funext i acc
    rw [hcond i acc]
  rw [hfun]
  exact foldr_guard _ _ _

/-- Splitting a list at its cut position splits the `p`-elements into all
but the last `n` (before the cut) and the last `n` (from the cut on). -/
theorem cutIdx_spec (p : Message → Bool) {n : Nat} (hn : 1 ≤ n) :
    ∀ l : List Message,
      (l.drop (cutIdx p n l)).filter p = (l.filter p).rtake n ∧
      (l.take (cutIdx p n l)).filter p = (l.filter p).rdrop n := by
  intro l
  induction l with
  | nil => simp [cutIdx, pIdxs, List.rtake, List.rdrop]
  | cons a l ih =>
    have hclen : (l.filter p).length = (pIdxs p l).length := by
      rw [length_pIdxs, List.countP_eq_length_filter]
    by_cases hpa : p a
    · by_cases hcn : (pIdxs p l).length < n
      · -- `a` itself is among the last `n` `p`-elements: the cut is 0.
        have hcut : cutIdx p n (a :: l) = 0 := by
          unfold cutIdx
          rw [pIdxs_cons, if_pos hpa, List.singleton_append, rtake_cons,
            List.length_map, if_pos hcn]
          rfl
        constructor
        · rw [hcut, List.drop_zero, List.filter_cons_of_pos hpa,
            rtake_cons, if_pos (by omega)]
        · rw [hcut, List.take_zero, List.filter_nil,
            List.filter_cons_of_pos hpa,
            rdrop_eq_nil (by simp only [List.length_cons]; omega)]
      · -- the cut sits inside `l`, shifted one step in `a :: l`
        have hne : (pIdxs p l).rtake n ≠ [] := by
          have h1 : 0 < ((pIdxs p l).rtake n).length := by
            rw [length_rtake]; omega
          exact List.ne_nil_of_length_pos h1
        obtain ⟨b, t, hbt⟩ := List.exists_cons_of_ne_nil hne
        have hcutl : cutIdx p n l = b := by unfold cutIdx; rw [hbt]; rfl
        have hcut : cutIdx p n (a :: l) = b + 1 := by
          unfold cutIdx
          rw [pIdxs_cons, if_pos hpa, List.singleton_append, rtake_cons,
            List.length_map, if_neg hcn, rtake_map, hbt]
          rfl
        obtain ⟨ih1, ih2⟩ := ih
        rw [hcutl] at ih1 ih2
        constructor
        · rw [hcut, List.drop_succ_cons, ih1,
            List.filter_cons_of_pos hpa, rtake_cons, if_neg (by omega)]
        · rw [hcut, List.take_succ_cons, List.filter_cons_of_pos hpa,
            List.filter_cons_of_pos hpa, rdrop_cons a (by omega), ih2]
    · by_cases hI : pIdxs p l = []
      · have hfl : l.filter p = [] := (pIdxs_eq_nil_iff p l).mp hI
        have hcut : cutIdx p n (a :: l) = l.length + 1 := by
          unfold cutIdx
          rw [pIdxs_cons, if_neg hpa, List.nil_append, hI]
          simp [List.rtake_nil]
        constructor
        · rw [hcut, List.drop_succ_cons, List.drop_length,
            List.filter_cons_of_neg hpa, hfl]
          simp [List.rtake_nil]
        · rw [hcut, List.take_succ_cons, List.take_length,
            List.filter_cons_of_neg hpa, hfl]
          simp [List.rdrop]
      · have hne : (pIdxs p l).rtake n ≠ [] := by
          have h0 : 0 < (pIdxs p l).length := List.length_pos.mpr hI
          have h1 : 0 < ((pIdxs p l).rtake n).length := by
            rw [length_rtake]; omega
          exact List.ne_nil_of_length_pos h1
        obtain ⟨b, t, hbt⟩ := List.exists_cons_of_ne_nil hne
        have hcutl : cutIdx p n l = b := by unfold cutIdx; rw [hbt]; rfl
        have hcut : cutIdx p n (a :: l) = b + 1 := by
          unfold cutIdx
          rw [pIdxs_cons, if_neg hpa, List.nil_append, rtake_map, hbt]
          rfl
        obtain ⟨ih1, ih2⟩ := ih
        rw [hcutl] at ih1 ih2
        constructor
        · rw [hcut, List.drop_succ_cons, ih1, List.filter_cons_of_neg hpa]
        · rw [hcut, List.take_succ_cons, List.filter_cons_of_neg hpa,
            List.filter_cons_of_neg hpa, ih2]

/-- When `p`-elements exist, the cut position is a valid index and carries a
`p`-element. -/
theorem p_at_cutIdx {p : Message → Bool} {n : Nat} (hn : 1 ≤ n)
    {l : List Message} (hl : l.filter p ≠ []) :
    cutIdx p n l < l.length ∧ p (l.getD (cutIdx p n l) default) := by
  have hI : pIdxs p l ≠ [] := fun h => hl ((pIdxs_eq_nil_iff p l).mp h)
  have hv : (pIdxs p l).rtake n ≠ [] := by
    have h0 : 0 < (pIdxs p l).length := List.length_pos.mpr hI
    have h1 : 0 < ((pIdxs p l).rtake n).length := by
      rw [length_rtake]; omega
    exact List.ne_nil_of_length_pos h1
  obtain ⟨b, t, hbt⟩ := List.exists_cons_of_ne_nil hv
  have hb : b ∈ pIdxs p l := by
    have hmem : b ∈ (pIdxs p l).rtake n := by
      rw [hbt]; exact List.mem_cons_self _ _
    rw [List.rtake] at hmem
    exact List.mem_of_mem_drop hmem
  have hcut : cutIdx p n l = b := by unfold cutIdx; rw [hbt]; rfl
  rw [hcut]
  exact mem_pIdxs hb

/-- Membership in the last `n` `p`-positions is membership in all
`p`-positions at or past the cut. -/
theorem mem_rtake_pIdxs {p : Message → Bool} {n : Nat} (hn : 1 ≤ n)
    {l : List Message} {i : Nat} :
    i ∈ (pIdxs p l).rtake n ↔ i ∈ pIdxs p l ∧ cutIdx p n l ≤ i := by
  by_cases hI : pIdxs p l = []
  · rw [hI]
    simp [List.rtake_nil]
  · have hv : (pIdxs p l).rtake n ≠ [] := by
      have h0 : 0 < (pIdxs p l).length := List.length_pos.mpr hI
      have h1 : 0 < ((pIdxs p l).rtake n).length := by
        rw [length_rtake]; omega
      exact List.ne_nil_of_length_pos h1
    obtain ⟨b, t, hbt⟩ := List.exists_cons_of_ne_nil hv
    have hcut : cutIdx p n l = b := by unfold cutIdx; rw [hbt]; rfl
    have hsplit : (pIdxs p l).rdrop n ++ (pIdxs p l).rtake n = pIdxs p l := by
      rw [List.rdrop, List.rtake]
      exact List.take_append_drop _ _
    have hsorted : ((pIdxs p l).rdrop n ++ (pIdxs p l).rtake n).Pairwise
        (· < ·) := by
      rw [hsplit]; exact pIdxs_sorted p l
    have hcross := (List.pairwise_append.mp hsorted).2.2
    have hvsorted : ((pIdxs p l).rtake n).Pairwise (· < ·) :=
      (List.pairwise_append.mp hsorted).2.1
    rw [hcut]
    constructor
    · intro hi
      refine ⟨by rw [← hsplit]; exact List.mem_append_right _ hi, ?_⟩
      rw [hbt] at hi
      rcases List.mem_cons.mp hi with rfl | hit
      · exact Nat.le_refl _
      · rw [hbt] at hvsorted
        exact Nat.le_of_lt ((List.pairwise_cons.mp hvsorted).1 i hit)
    · rintro ⟨hi, hbi⟩
      rw [← hsplit] at hi
      rcases List.mem_append.mp hi with hiu | hiv
      · exfalso
        have : i < b := hcross i hiu b (by rw [hbt]; exact List.mem_cons_self _ _)
        omega
      · exact hiv

/-! ## `filterIdxFrom` characterisations -/

theorem filterIdxFrom_ge (q : Message → Bool) (m : Nat) :
    ∀ (l : List Message) (k : Nat), m ≤ k →
      filterIdxFrom (fun i a => q a || decide (m ≤ i)) k l = l := by
  intro l
  induction l with
  | nil => intro k _; rfl
  | cons a l ih =>
    intro k hk
    unfold filterIdxFrom
    rw [if_pos (by simp [hk]), ih (k + 1) (by omega)]

theorem filterIdxFrom_split (q : Message → Bool) (m : Nat) :
    ∀ (l : List Message) (k : Nat),
      filterIdxFrom (fun i a => q a || decide (m ≤ i)) k l =
        (l.take (m - k)).filter q ++ l.drop (m - k) := by
  intro l
  induction l with
  | nil => intro k; simp [filterIdxFrom]
  | cons a l ih =>
    intro k
    by_cases hk : m ≤ k
    · rw [filterIdxFrom_ge q m _ k hk, Nat.sub_eq_zero_of_le hk]
      simp
    · have hs : m - k = (m - (k + 1)) + 1 := by omega
      unfold filterIdxFrom
      rw [hs, List.take_succ_cons, List.drop_succ_cons]
      by_cases hq : q a
      · rw [if_pos (by simp [hq]), ih (k + 1),
          List.filter_cons_of_pos hq, List.cons_append]
      · rw [if_neg (by simp [hq, hk]), ih (k + 1),
          List.filter_cons_of_neg hq]

theorem filterIdxFrom_congr (keep1 keep2 : Nat → Message → Bool) :
    ∀ (l : List Message) (k : Nat),
      (∀ j, j < l.length →
        keep1 (k + j) (l.getD j default) = keep2 (k + j) (l.getD j default)) →
      filterIdxFrom keep1 k l = filterIdxFrom keep2 k l := by
  intro l
  induction l with
  | nil => intro k _; rfl
  | cons a l ih =>
    intro k h
    have h0 := h 0 (by simp)
    simp only [Nat.add_zero, List.getD_cons_zero] at h0
    have hrest : ∀ j, j < l.length →
        keep1 (k + 1 + j) (l.getD j default) =
        keep2 (k + 1 + j) (l.getD j default) := by
      intro j hj
      have := h (j + 1) (by simpa using Nat.succ_lt_succ hj)
      simpa [Nat.add_comm, Nat.add_assoc, Nat.add_left_comm] using this
    unfold filterIdxFrom
    rw [h0, ih (k + 1) hrest]

/-! ## Split characterisations of the two pruning passes -/

/-- TTL pruning keeps the systems of the prefix before the cut and the whole
suffix from the cut on. -/
theorem pruneContextByTTL_eq {config : PruningConfig}
    (h : config.mode = PruningModeCacheTTL) (msgs : List Message) :
    pruneContextByTTL msgs config =
      (msgs.take (cutIdx (fun m => m.role == "assistant")
          (max config.keepLastAssistants 1).toNat msgs)).filter
          (fun m => m.role == "system") ++
        msgs.drop (cutIdx (fun m => m.role == "assistant")
          (max config.keepLastAssistants 1).toNat msgs) := by
  simp only [pruneContextByTTL, h, bne_self_eq_false, Bool.false_eq_true,
    if_false]
  cases msgs with
  | nil => simp [cutIdx, pIdxs, List.rtake]
  | cons a l =>
    simp only [List.isEmpty_cons, Bool.false_eq_true, if_false]
    rw [collectLastIdx_eq]
    have hck : ((pIdxs (fun m => m.role == "assistant") (a :: l)).rtake
        (max config.keepLastAssistants 1).toNat).headD (a :: l).length =
        cutIdx (fun m => m.role == "assistant")
          (max config.keepLastAssistants 1).toNat (a :: l) := rfl
    rw [hck]
    rw [filterIdxFrom_split (fun m => m.role == "system")
      (cutIdx (fun m => m.role == "assistant")
        (max config.keepLastAssistants 1).toNat (a :: l)) (a :: l) 0]
    rw [Nat.sub_zero]

/-- Tool-result pruning keeps the not-small-tool messages of the prefix
before the tool cut and the whole suffix from the tool cut on. -/
theorem pruneToolResults_eq {config : PruningConfig}
    (h : config.mode = PruningModeCacheTTL) (msgs : List Message) :
    pruneToolResults msgs config =
      (msgs.take (cutIdx (fun m => m.role == "tool") 3 msgs)).filter
          (fun m => !(m.role == "tool" &&
            decide ((m.content.length : Int) <
              config.minPrunableToolChars))) ++
        msgs.drop (cutIdx (fun m => m.role == "tool") 3 msgs) := by
  simp only [pruneToolResults, h, bne_self_eq_false, Bool.false_eq_true,
    if_false]
  rw [collectLastIdx_eq]
  have h3 : (max (3 : Int) 1).toNat = 3 := rfl
  rw [h3]
  set cut := cutIdx (fun m => m.role == "tool") 3 msgs with hcutdef
  have hcongr : filterIdxFrom
      (fun i msg => !(msg.role == "tool" &&
        !(((pIdxs (fun m => m.role == "tool") msgs).rtake 3).contains i) &&
        decide ((msg.content.length : Int) < config.minPrunableToolChars)))
      0 msgs =
      filterIdxFrom
      (fun i msg => (!(msg.role == "tool" &&
        decide ((msg.content.length : Int) < config.minPrunableToolChars)))
        || decide (cut ≤ i)) 0 msgs := by
    apply filterIdxFrom_congr
    intro j hj
    simp only [Nat.zero_add]
    set m := msgs.getD j default with hm
    by_cases ht : m.role == "tool"
    · by_cases hs :
          decide ((m.content.length : Int) < config.minPrunableToolChars)
      · have hmem : j ∈ (pIdxs (fun m => m.role == "tool") msgs).rtake 3 ↔
            cut ≤ j := by
          rw [mem_rtake_pIdxs (by omega)]
          constructor
          · exact fun hx => hx.2
          · intro h2
            refine ⟨?_, h2⟩
            unfold pIdxs
            exact List.mem_filter.mpr ⟨List.mem_range.mpr hj, by
              rw [← hm]; exact ht⟩
        have hcont :
            ((pIdxs (fun m => m.role == "tool") msgs).rtake 3).contains j =
            decide (cut ≤ j) := by
          by_cases hd : cut ≤ j
          · rw [decide_eq_true hd]
            exact List.elem_iff.mpr (hmem.mpr hd)
          · rw [decide_eq_false hd]
            by_contra hc
            have : ((pIdxs (fun m => m.role == "tool") msgs).rtake 3).contains
                j = true := by
              cases hb : ((pIdxs (fun m => m.role == "tool") msgs).rtake
                  3).contains j
              · exact absurd hb hc
              · rfl
            exact hd (hmem.mp (List.elem_iff.mp this))
        rw [hcont, ht, hs]
        simp
      · rw [ht]
        simp only [Bool.not_eq_true] at hs
        rw [hs]
        simp
    · simp only [Bool.not_eq_true] at ht
      rw [ht]
      simp
  rw [hcongr]
  rw [filterIdxFrom_split
    (fun m => !(m.role == "tool" &&
      decide ((m.content.length : Int) < config.minPrunableToolChars)))
    cut msgs 0]
  rw [Nat.sub_zero]

/-! ## Helpers for the idempotence proof -/

theorem role_and_ne {s1 s2 : String} (h : s1 ≠ s2) (m : Message) :
    ((m.role == s1) && (m.role == s2)) = false := by
  by_cases h1 : m.role == s1
  · have he : m.role = s1 := eq_of_beq h1
    have h2 : (m.role == s2) = false := beq_eq_false_iff_ne.mpr (by
      rw [he]; exact h)
    rw [h1, h2, Bool.true_and]
  · rw [Bool.eq_false_iff.mpr h1, Bool.false_and]

theorem getD_append_length {α : Type _} (u v : List α) (d : α) :
    (u ++ v).getD u.length d = v.getD 0 d := by
  simp [List.getD_eq_getElem?_getD, List.getElem?_append_right]

theorem getD_zero_drop {α : Type _} (l : List α) (n : Nat) (d : α) :
    (l.drop n).getD 0 d = l.getD n d := by
  simp [List.getD_eq_getElem?_getD, List.getElem?_drop]

theorem getD_mem_take {α : Type _} {l : List α} {i n : Nat} (hi : i < n)
    (hil : i < l.length) (d : α) : l.getD i d ∈ l.take n := by
  have h1 : (l.take n).getD i d = l.getD i d := by
    simp [List.getD_eq_getElem?_getD, List.getElem?_take, hi]
  rw [← h1]
  have h2 : i < (l.take n).length := by simp; omega
  rw [List.getD_eq_getElem _ _ h2]
  exact List.getElem_mem _

/-- After `pruneToolResults`, every tool message that is not among the last
three tool messages has content of at least `MinPrunableToolChars`. -/
theorem toolPrune_establishes {config : PruningConfig}
    (h : config.mode = PruningModeCacheTTL) (x : List Message) :
    ∀ m ∈ (((pruneToolResults x config).filter
        (fun m => m.role == "tool")).rdrop 3),
      decide ((m.content.length : Int) < config.minPrunableToolChars) =
        false := by
  intro m hm
  rw [pruneToolResults_eq h, List.filter_append] at hm
  have hv : ((x.drop (cutIdx (fun m => m.role == "tool") 3 x)).filter
      (fun m => m.role == "tool")) =
      (x.filter (fun m => m.role == "tool")).rtake 3 :=
    (cutIdx_spec _ (by omega) x).1
  have hvlen : ((x.drop (cutIdx (fun m => m.role == "tool") 3 x)).filter
      (fun m => m.role == "tool")).length ≤ 3 := by
    rw [hv, length_rtake]; omega
  rw [rdrop_append_right_le hvlen] at hm
  have hmu : m ∈ ((x.take (cutIdx (fun m => m.role == "tool") 3 x)).filter
      (fun m => !(m.role == "tool" &&
        decide ((m.content.length : Int) <
          config.minPrunableToolChars)))).filter
      (fun m => m.role == "tool") := by
    rw [List.rdrop] at hm
    exact List.mem_of_mem_take hm
  have ht := (List.mem_filter.mp hmu).2
  have hnst := (List.mem_filter.mp (List.mem_filter.mp hmu).1).2
  simp only [] at ht hnst
  cases hs : decide ((m.content.length : Int) < config.minPrunableToolChars)
  · rfl
  · exfalso
    rw [ht, hs] at hnst
    simp at hnst

/-- TTL pruning preserves the property established by `pruneToolResults`. -/
theorem ttlPrune_preserves {config : PruningConfig}
    (h : config.mode = PruningModeCacheTTL) {z : List Message}
    (hP : ∀ m ∈ ((z.filter (fun m => m.role == "tool")).rdrop 3),
      decide ((m.content.length : Int) < config.minPrunableToolChars) =
        false) :
    ∀ m ∈ (((pruneContextByTTL z config).filter
        (fun m => m.role == "tool")).rdrop 3),
      decide ((m.content.length : Int) < config.minPrunableToolChars) =
        false := by
  intro m hm
  rw [pruneContextByTTL_eq h, List.filter_append] at hm
  have h1 : ((z.take (cutIdx (fun m => m.role == "assistant")
      (max config.keepLastAssistants 1).toNat z)).filter
      (fun m => m.role == "system")).filter (fun m => m.role == "tool") =
      [] := by
    rw [List.filter_filter]
    apply List.filter_eq_nil_iff.mpr
    intro a _
    rw [role_and_ne (by decide) a]
    simp
  rw [h1, List.nil_append] at hm
  have hmm : m ∈ ((z.take (cutIdx (fun m => m.role == "assistant")
      (max config.keepLastAssistants 1).toNat z)).filter
        (fun m => m.role == "tool") ++
      (z.drop (cutIdx (fun m => m.role == "assistant")
      (max config.keepLastAssistants 1).toNat z)).filter
        (fun m => m.role == "tool")).rdrop 3 :=
    mem_rdrop_append _ hm
  rw [← List.filter_append, List.take_append_drop] at hmm
  exact hP m hmm

/-- `pruneToolResults` is the identity on lists satisfying the established
property. -/
theorem toolPrune_fixed {config : PruningConfig}
    (h : config.mode = PruningModeCacheTTL) {z : List Message}
    (hP : ∀ m ∈ ((z.filter (fun m => m.role == "tool")).rdrop 3),
      decide ((m.content.length : Int) < config.minPrunableToolChars) =
        false) :
    pruneToolResults z config = z := by
  rw [pruneToolResults_eq h]
  have hall : (z.take (cutIdx (fun m => m.role == "tool") 3 z)).filter
      (fun m => !(m.role == "tool" &&
        decide ((m.content.length : Int) < config.minPrunableToolChars))) =
      z.take (cutIdx (fun m => m.role == "tool") 3 z) := by
    rw [List.filter_eq_self]
    intro m hm
    by_cases ht : (m.role == "tool") = true
    · cases hs : decide ((m.content.length : Int) <
          config.minPrunableToolChars)
      · rw [ht]; rfl
      · exfalso
        have hmem : m ∈ (z.take (cutIdx (fun m => m.role == "tool") 3
            z)).filter (fun m => m.role == "tool") :=
          List.mem_filter.mpr ⟨hm, ht⟩
        rw [(cutIdx_spec _ (by omega) z).2] at hmem
        have := hP m hmem
        rw [hs] at this
        simp at this
    · rw [Bool.eq_false_iff.mpr ht, Bool.false_and]; rfl
  rw [hall, List.take_append_drop]

/-- The split form of TTL pruning is a fixed point of another TTL split at
the same `n`. -/
theorem ttl_split_fixed {n : Nat} (hn : 1 ≤ n) (y R : List Message)
    (hR : R = (y.take (cutIdx (fun m => m.role == "assistant") n y)).filter
        (fun m => m.role == "system") ++
      y.drop (cutIdx (fun m => m.role == "assistant") n y)) :
    (R.take (cutIdx (fun m => m.role == "assistant") n R)).filter
        (fun m => m.role == "system") ++
      R.drop (cutIdx (fun m => m.role == "assistant") n R) = R := by
  have hsys_asst : ∀ (w : List Message),
      (w.filter (fun m => m.role == "system")).filter
        (fun m => m.role == "assistant") = [] := by
    intro w
    rw [List.filter_filter]
    apply List.filter_eq_nil_iff.mpr
    intro a _
    rw [Bool.and_comm, role_and_ne (by decide) a]
    simp
  have hRassist : R.filter (fun m => m.role == "assistant") =
      (y.filter (fun m => m.role == "assistant")).rtake n := by
    rw [hR, List.filter_append, hsys_asst, List.nil_append,
      (cutIdx_spec (fun m => m.role == "assistant") hn y).1]
  have hlen : (R.filter (fun m => m.role == "assistant")).length ≤ n := by
    rw [hRassist, length_rtake]; omega
  have hnoA : (R.take (cutIdx (fun m => m.role == "assistant") n R)).filter
      (fun m => m.role == "assistant") = [] := by
    rw [(cutIdx_spec (fun m => m.role == "assistant") hn R).2]
    exact rdrop_eq_nil hlen
  by_cases hya : y.filter (fun m => m.role == "assistant") = []
  · have hIy : pIdxs (fun m => m.role == "assistant") y = [] :=
      (pIdxs_eq_nil_iff _ _).mpr hya
    have hcutY : cutIdx (fun m => m.role == "assistant") n y = y.length := by
      unfold cutIdx
      rw [hIy]
      simp [List.rtake_nil]
    have hRval : R = y.filter (fun m => m.role == "system") := by
      rw [hR, hcutY, List.take_length, List.drop_length, List.append_nil]
    have hfix : (R.take (cutIdx (fun m => m.role == "assistant") n
        R)).filter (fun m => m.role == "system") =
        R.take (cutIdx (fun m => m.role == "assistant") n R) := by
      apply List.filter_eq_self.mpr
      intro m hm
      have : m ∈ R := List.mem_of_mem_take hm
      rw [hRval] at this
      exact (List.mem_filter.mp this).2
    rw [hfix, List.take_append_drop]
  · obtain ⟨hcutYlt, hcutYp⟩ := p_at_cutIdx hn hya
    have hCpos : 0 < (y.drop (cutIdx (fun m => m.role == "assistant") n
        y)).length := by
      rw [List.length_drop]; omega
    have hcutR_le : cutIdx (fun m => m.role == "assistant") n R ≤
        ((y.take (cutIdx (fun m => m.role == "assistant") n y)).filter
          (fun m => m.role == "system")).length := by
      by_contra hgt
      push_neg at hgt
      have hposlt : ((y.take (cutIdx (fun m => m.role == "assistant") n
          y)).filter (fun m => m.role == "system")).length < R.length := by
        rw [hR, List.length_append]; omega
      have hgetd : R.getD ((y.take (cutIdx (fun m => m.role == "assistant")
          n y)).filter (fun m => m.role == "system")).length default =
          y.getD (cutIdx (fun m => m.role == "assistant") n y) default := by
        rw [hR, getD_append_length, getD_zero_drop]
      have hmem : R.getD ((y.take (cutIdx (fun m => m.role == "assistant")
          n y)).filter (fun m => m.role == "system")).length default ∈
          R.take (cutIdx (fun m => m.role == "assistant") n R) :=
        getD_mem_take hgt hposlt default
      have hmem2 : R.getD ((y.take (cutIdx (fun m => m.role == "assistant")
          n y)).filter (fun m => m.role == "system")).length default ∈
          (R.take (cutIdx (fun m => m.role == "assistant") n R)).filter
            (fun m => m.role == "assistant") :=
        List.mem_filter.mpr ⟨hmem, by rw [hgetd]; exact hcutYp⟩
      rw [hnoA] at hmem2
      exact absurd hmem2 (List.not_mem_nil _)
    have htake1 : R.take (cutIdx (fun m => m.role == "assistant") n R) =
        ((y.take (cutIdx (fun m => m.role == "assistant") n y)).filter
            (fun m => m.role == "system") ++
          y.drop (cutIdx (fun m => m.role == "assistant") n y)).take
          (cutIdx (fun m => m.role == "assistant") n R) :=
      congrArg (List.take (cutIdx (fun m => m.role == "assistant") n R)) hR
    have htake : R.take (cutIdx (fun m => m.role == "assistant") n R) =
        ((y.take (cutIdx (fun m => m.role == "assistant") n y)).filter
          (fun m => m.role == "system")).take
          (cutIdx (fun m => m.role == "assistant") n R) := by
      rw [htake1, List.take_append_eq_append_take,
        Nat.sub_eq_zero_of_le hcutR_le, List.take_zero, List.append_nil]
    have hfix : (R.take (cutIdx (fun m => m.role == "assistant") n
        R)).filter (fun m => m.role == "system") =
        R.take (cutIdx (fun m => m.role == "assistant") n R) := by
      rw [htake]
      apply List.filter_eq_self.mpr
      intro m hm
      have hmS : m ∈ (y.take (cutIdx (fun m => m.role == "assistant") n
          y)).filter (fun m => m.role == "system") :=
        List.mem_of_mem_take hm
      exact (List.mem_filter.mp hmS).2
    rw [hfix, List.take_append_drop]

/-- `pruneContextByTTL` is idempotent. -/
theorem ttlPrune_fixed {config : PruningConfig}
    (h : config.mode = PruningModeCacheTTL) (y : List Message) :
    pruneContextByTTL (pruneContextByTTL y config) config =
      pruneContextByTTL y config := by
  have hK1 : 1 ≤ (max config.keepLastAssistants 1).toNat := by
    have h1 : (1 : Int) ≤ max config.keepLastAssistants 1 :=
      le_max_right _ _
    omega
  rw [pruneContextByTTL_eq h (pruneContextByTTL y config)]
  exact ttl_split_fixed hK1 y (pruneContextByTTL y config)
    (pruneContextByTTL_eq h y)

/-! ## Claims C5 and C7 -/

/-- **C5**: with mode `cache-ttl` and `KeepLastAssistants ≥ 1`, TTL pruning
computes the earliest index among the last `KeepLastAssistants` assistant
messages (`cutIdx`, defaulting to the history length) and drops exactly the
non-system messages strictly before that index; every system message is
preserved, and the assistant messages of the output are exactly the last
`KeepLastAssistants` assistant messages of the input. -/
theorem claim_C5 (msgs : List Message) (config : PruningConfig)
    (hmode : config.mode = PruningModeCacheTTL)
    (hK : 1 ≤ config.keepLastAssistants) :
    pruneContextByTTL msgs config =
      (msgs.take (cutIdx (fun m => m.role == "assistant")
          config.keepLastAssistants.toNat msgs)).filter
          (fun m => m.role == "system") ++
        msgs.drop (cutIdx (fun m => m.role == "assistant")
          config.keepLastAssistants.toNat msgs) ∧
    (pruneContextByTTL msgs config).filter (fun m => m.role == "system") =
      msgs.filter (fun m => m.role == "system") ∧
    (pruneContextByTTL msgs config).filter (fun m => m.role == "assistant") =
      (msgs.filter (fun m => m.role == "assistant")).rtake
        config.keepLastAssistants.toNat := by
  have hmax : (max config.keepLastAssistants 1).toNat =
      config.keepLastAssistants.toNat := by
    have : max config.keepLastAssistants 1 = config.keepLastAssistants :=
      max_eq_left hK
    rw [this]
  have hK1 : 1 ≤ config.keepLastAssistants.toNat := by omega
  have heq := pruneContextByTTL_eq hmode msgs
  rw [hmax] at heq
  refine ⟨heq, ?_, ?_⟩
  · rw [heq, List.filter_append, List.filter_filter]
    have hc : (List.filter (fun m =>
        (m.role == "system") && (m.role == "system"))
        (msgs.take (cutIdx (fun m => m.role == "assistant")
          config.keepLastAssistants.toNat msgs))) =
        (msgs.take (cutIdx (fun m => m.role == "assistant")
          config.keepLastAssistants.toNat msgs)).filter
          (fun m => m.role == "system") := by
      apply List.filter_congr
      intro m _
      rw [Bool.and_self]
    rw [hc, ← List.filter_append, List.take_append_drop]
  · rw [heq, List.filter_append, List.filter_filter]
    have hc : (List.filter (fun m =>
        (m.role == "assistant") && (m.role == "system"))
        (msgs.take (cutIdx (fun m => m.role == "assistant")
          config.keepLastAssistants.toNat msgs))) = [] := by
      apply List.filter_eq_nil_iff.mpr
      intro a _
      rw [role_and_ne (by decide) a]
      simp
    rw [hc, List.nil_append,
      (cutIdx_spec (fun m => m.role == "assistant") hK1 msgs).1]

/-- Witness for C5 at a concrete history and config. -/
theorem claim_C5_witness :
    ((⟨"cache-ttl", 2, 1000⟩ : PruningConfig).mode = PruningModeCacheTTL ∧
      1 ≤ (⟨"cache-ttl", 2, 1000⟩ : PruningConfig).keepLastAssistants) ∧
    pruneContextByTTL
      [⟨"system", "s", ""⟩, ⟨"user", "u1", ""⟩, ⟨"assistant", "a1", ""⟩,
       ⟨"user", "u2", ""⟩, ⟨"assistant", "a2", ""⟩, ⟨"tool", "t", ""⟩]
      ⟨"cache-ttl", 2, 1000⟩ =
      [⟨"system", "s", ""⟩, ⟨"assistant", "a1", ""⟩, ⟨"user", "u2", ""⟩,
       ⟨"assistant", "a2", ""⟩, ⟨"tool", "t", ""⟩] :=
  ⟨⟨rfl, by decide⟩,
    ((claim_C5 _ _ rfl (by decide)).1).trans (by decide)⟩

/-- **C7**: `ApplyPruning` is idempotent — applying it twice returns the
same message list as applying it once, for every history and every
`PruningConfig`. -/
theorem claim_C7 (msgs : List Message) (config : PruningConfig) :
    applyPruning (applyPruning msgs config) config =
      applyPruning msgs config := by
  by_cases hoff : config.mode = PruningModeOff
  · simp [applyPruning, hoff]
  · have hoffb : (config.mode == PruningModeOff) = false :=
      beq_eq_false_iff_ne.mpr hoff
    by_cases httl : config.mode = PruningModeCacheTTL
    · simp only [applyPruning, hoffb, Bool.false_eq_true, if_false]
      have hprop := toolPrune_establishes httl msgs
      have hprop2 := ttlPrune_preserves httl hprop
      rw [toolPrune_fixed httl hprop2]
      exact ttlPrune_fixed httl _
    · have hbne : (config.mode != PruningModeCacheTTL) = true := by
        simp [bne, beq_eq_false_iff_ne.mpr httl]
      have hT : ∀ m, pruneToolResults m config = m := by
        intro m
        unfold pruneToolResults
        rw [if_pos hbne]
      have hL : ∀ m, pruneContextByTTL m config = m := by
        intro m
        unfold pruneContextByTTL
        rw [if_pos hbne]
      simp only [applyPruning, hoffb, Bool.false_eq_true, if_false, hT, hL]

/-! ## Context builder: `BuildMessages` (claim C1) -/

/-- The system-prompt assembly inside `ContextBuilder.BuildMessages`
(file `context.go`): the prompt from `BuildSystemPrompt()` plus the
"Current Session" section (when channel and chat id are set) plus the
"Summary of Previous Conversation" section (when a summary exists). -/
def buildFullPrompt (systemPrompt summary channel chatID : String) :
    String :=
  let sp1 := if channel ≠ "" ∧ chatID ≠ "" then
      systemPrompt ++ "\n\n## Current Session\nChannel: " ++ channel ++
        "\nChat ID: " ++ chatID
    else systemPrompt
  if summary ≠ "" then
    sp1 ++ "\n\n## Summary of Previous Conversation\n\n" ++ summary
  else sp1

/-- `ContextBuilder.BuildMessages` (file `context.go`): strip the leading
run of tool-role messages from the history (the `for len(history) > 0 &&
history[0].Role == "tool"` loop), then assemble
system :: history' ++ [user]. -/
def buildMessages (systemPrompt : String) (history : List Message)
    (summary : String) (currentMessage : String)
    (channel chatID : String) : List Message :=
  ⟨"system", buildFullPrompt systemPrompt summary channel chatID, ""⟩ ::
    (history.dropWhile (fun m => m.role == "tool") ++
      [⟨"user", currentMessage, ""⟩])

/-- The property the specification asserts of the assembled array: scanning
from the left, no tool-role message occurs before the first assistant-role
message (a leading tool message would dangle without the assistant
tool-call that produced it). -/
def noToolBeforeAssistant : List Message → Bool
  | [] => true
  | m :: rest =>
    if m.role == "assistant" then true
    else if m.role == "tool" then false
    else noToolBeforeAssistant rest

/-- Counterexample to C1: `BuildMessages` strips only the *leading* run of
tool messages, so a history `[user, tool, assistant]` — whose tool message
is not leading — passes through, and in the returned array the tool message
precedes the first assistant message. -/
theorem claim_C1_counterexample :
    noToolBeforeAssistant
      (buildMessages "prompt"
        [⟨"user", "u", ""⟩, ⟨"tool", "t", ""⟩, ⟨"assistant", "a", ""⟩]
        "" "hi" "" "") = false := by decide

theorem noToolBeforeAssistant_append_user (c : String) :
    ∀ l : List Message, noToolBeforeAssistant l = true →
      noToolBeforeAssistant (l ++ [⟨"user", c, ""⟩]) = true := by
  intro l
  induction l with
  | nil => intro _; rfl
  | cons m rest ih =>
    intro h
    simp only [noToolBeforeAssistant, List.cons_append] at h ⊢
    by_cases ha : m.role == "assistant"
    · rw [if_pos ha]
    · rw [if_neg ha] at h ⊢
      by_cases ht : m.role == "tool"
      · rw [if_pos ht] at h
        exact absurd h (by simp)
      · rw [if_neg ht] at h ⊢
        exact ih h

/-- **C1 (amended)**: `BuildMessages` returns exactly one system message
holding the assembled prompt, then the history with its leading run of
tool-role messages removed, then the new user message; and no tool-role
message precedes the first assistant-role message in the returned array
*provided* that already holds of the history once its leading tool run is
removed — the stripping is only defensive against *leading* orphan tool
messages and does not touch an interior tool message that precedes the
first assistant. -/
theorem claim_C1_amended (systemPrompt : String) (history : List Message)
    (summary : String) (currentMessage : String) (channel chatID : String)
    (h : noToolBeforeAssistant
      (history.dropWhile (fun m => m.role == "tool")) = true) :
    buildMessages systemPrompt history summary currentMessage channel
        chatID =
      ⟨"system", buildFullPrompt systemPrompt summary channel chatID, ""⟩ ::
        (history.dropWhile (fun m => m.role == "tool") ++
          [⟨"user", currentMessage, ""⟩]) ∧
    noToolBeforeAssistant
      (buildMessages systemPrompt history summary currentMessage channel
        chatID) = true := by
  refine ⟨rfl, ?_⟩
  unfold buildMessages
  simp only [noToolBeforeAssistant]
  rw [if_neg (by decide), if_neg (by decide)]
  exact noToolBeforeAssistant_append_user _ _ h

/-- Witness for the amended C1 at a concrete history whose leading tool run
is stripped. -/
theorem claim_C1_amended_witness :
    noToolBeforeAssistant
      (([⟨"tool", "t0", ""⟩, ⟨"user", "u", ""⟩, ⟨"assistant", "a", ""⟩,
         ⟨"tool", "t1", ""⟩] : List Message).dropWhile
        (fun m => m.role == "tool")) = true ∧
    noToolBeforeAssistant
      (buildMessages "p"
        [⟨"tool", "t0", ""⟩, ⟨"user", "u", ""⟩, ⟨"assistant", "a", ""⟩,
         ⟨"tool", "t1", ""⟩] "sum" "hi" "discord" "42") = true :=
  ⟨by decide,
    (claim_C1_amended "p" _ "sum" "hi" "discord" "42" (by decide)).2⟩

/-! ## Bootstrap loading and truncation (claims C2 and C6)

Strings are `List Char` here: Go slices bootstrap contents by byte index,
which the character model reproduces exactly on ASCII contents. -/

/-- Character-list strings, for byte-indexed slicing. -/
abbrev Str := List Char

/-- `BootstrapConfig` (file `bootstrap.go`). -/
structure BootstrapConfig where
  maxChars : Nat
  totalMaxChars : Nat
  deriving DecidableEq, Repr

/-- `SessionType` (file `bootstrap.go`). -/
inductive SessionType
  | main
  | cron
  | subagent
  | heartbeat
  deriving DecidableEq, Repr

/-- `getBootstrapFilesForSession` (file `bootstrap.go`).  The `default`
branch of the Go switch is unreachable for the four declared session
types. -/
def getBootstrapFilesForSession : SessionType → List String
  | .main =>
    ["AGENTS.md", "SOUL.md", "TOOLS.md", "IDENTITY.md", "USER.md",
     "HEARTBEAT.md"]
  | .cron => ["AGENTS.md", "TOOLS.md"]
  | .subagent => ["AGENTS.md", "TOOLS.md"]
  | .heartbeat => ["HEARTBEAT.md"]

/-- The `fmt.Sprintf("\n\n[...truncated %s: kept %d+%d chars of %d, read %s
for full content...]\n\n", …)` marker of `trimBootstrapContent`. -/
def trimMarker (filename : Str) (headSize tailSize origLen : Nat) : Str :=
  "\n\n[...truncated ".toList ++ filename ++ ": kept ".toList ++
    (Nat.repr headSize).toList ++ "+".toList ++
    (Nat.repr tailSize).toList ++ " chars of ".toList ++
    (Nat.repr origLen).toList ++ ", read ".toList ++ filename ++
    " for full content...]\n\n".toList

/-- `trimBootstrapContent` (file `bootstrap.go`): keep the first 70% and the
last 20% of the cap, joined by the marker.  `int(float64(maxChars)*0.70)`
and `int(float64(maxChars)*0.20)` are modelled by the exact rational floors
`7*maxChars/10` and `2*maxChars/10` (they agree at every concrete input
used below); the Go clamp `if headSize < 0 { headSize = 0 }` is `Nat`
subtraction. -/
def trimBootstrapContent (content : Str) (filename : Str) (maxChars : Nat) :
    Str :=
  if content.length ≤ maxChars then content
  else
    let headSize0 := 7 * maxChars / 10
    let tailSize := 2 * maxChars / 10
    let headSize := if headSize0 + tailSize > content.length then
        content.length - tailSize - 100
      else headSize0
    let tail := if 0 < tailSize ∧ headSize < content.length then
        content.drop (max (content.length - tailSize) headSize)
      else []
    if tail ≠ [] then
      content.take headSize ++
        trimMarker filename headSize tailSize content.length ++ tail
    else
      content.take headSize ++
        ("\n[...truncated ".toList ++ filename ++ "...]".toList)

/-- One iteration of the loading loop of `LoadBootstrapFilesForSession`
(file `bootstrap.go`).  `files` models the workspace directory as an
association list filename ↦ contents (a missing key is a file that fails
`os.ReadFile` and is skipped).  The accumulator is the `(result,
totalUsed)` pair of the Go loop. -/
def loadBootstrapStep (cfg : BootstrapConfig) (files : List (String × Str))
    (acc : Str × Nat) (filename : String) : Str × Nat :=
  match files.lookup filename with
  | none => acc
  | some data =>
    let content := if cfg.maxChars < data.length then
        trimBootstrapContent data filename.toList cfg.maxChars
      else data
    if cfg.totalMaxChars < acc.2 + content.length then
      let remaining := cfg.totalMaxChars - acc.2
      if 500 < remaining then
        let content2 := trimBootstrapContent content filename.toList
          remaining
        (acc.1 ++ "## ".toList ++ filename.toList ++ "\n\n".toList ++
          content2 ++ "\n\n".toList, acc.2 + content2.length)
      else acc
    else
      (acc.1 ++ "## ".toList ++ filename.toList ++ "\n\n".toList ++
        content ++ "\n\n".toList, acc.2 + content.length)

/-- `LoadBootstrapFilesForSession` (file `bootstrap.go`), exposing the final
`(result, totalUsed)` state of the loop (Go returns `result` and discards
`totalUsed`; `totalUsed` is the total size of the included contents, which
is what the budget invariant speaks about). -/
def loadBootstrapFilesForSession (files : List (String × Str))
    (cfg : BootstrapConfig) (sessionType : SessionType) : Str × Nat :=
  (getBootstrapFilesForSession sessionType).foldl
    (loadBootstrapStep cfg files) ([], 0)

set_option maxRecDepth 7000 in
/-- **C2 (code-bug evaluation)**: with `MaxChars = 20000`,
`TotalMaxChars = 501` and a single 502-character `AGENTS.md`, the loop
takes the remaining-budget branch (`remaining = 501 > 500`), but
`trimBootstrapContent` returns `350 + 91 + 100 = 541` characters — the
91-character marker is not accounted against the cap — so the included
total is `541 > TotalMaxChars`, violating the claimed budget invariant. -/
theorem claim_C2_eval :
    (loadBootstrapFilesForSession [("AGENTS.md", List.replicate 502 'a')]
      ⟨20000, 501⟩ SessionType.main).2 = 541 ∧
    ¬ ((loadBootstrapFilesForSession
        [("AGENTS.md", List.replicate 502 'a')]
        ⟨20000, 501⟩ SessionType.main).2 ≤ 501) := by
  constructor
  · rfl
  · intro h
    rw [show (loadBootstrapFilesForSession
        [("AGENTS.md", List.replicate 502 'a')]
        ⟨20000, 501⟩ SessionType.main).2 = 541 from rfl] at h
    omega

set_option maxRecDepth 7000 in
/-- Counterexample to C6: with `MaxChars = 100` and a 400-character file
the truncated replacement has length `70 + 89 + 20 = 179`, not `≤ 100`:
the marker is appended on top of the head/tail shares. -/
theorem claim_C6_counterexample :
    (trimBootstrapContent (List.replicate 400 'a') "AGENTS.md".toList
      100).length = 179 ∧
    ¬ ((trimBootstrapContent (List.replicate 400 'a') "AGENTS.md".toList
      100).length ≤ 100) := by
  constructor
  · rfl
  · intro h
    rw [show (trimBootstrapContent (List.replicate 400 'a')
        "AGENTS.md".toList 100).length = 179 from rfl] at h
    omega

/-- **C6 (amended)**: for content longer than the cap, with the head and
tail shares fitting inside the content and a positive tail share, the
truncated replacement consists of exactly the first `⌊0.7·cap⌋` characters,
then the marker naming the file and the kept/dropped counts, then the last
`⌊0.2·cap⌋` characters; its length is head + marker + tail, which is not
bounded by the cap (at `MaxChars = 100` with a 400-char file it is 179). -/
theorem claim_C6_amended (content filename : Str) (maxChars : Nat)
    (hbig : maxChars < content.length)
    (hfit : 7 * maxChars / 10 + 2 * maxChars / 10 ≤ content.length)
    (htail : 0 < 2 * maxChars / 10) :
    trimBootstrapContent content filename maxChars =
      content.take (7 * maxChars / 10) ++
        trimMarker filename (7 * maxChars / 10) (2 * maxChars / 10)
          content.length ++
        content.drop (content.length - 2 * maxChars / 10) ∧
    (trimBootstrapContent content filename maxChars).length =
      7 * maxChars / 10 +
        (trimMarker filename (7 * maxChars / 10) (2 * maxChars / 10)
          content.length).length + 2 * maxChars / 10 := by
  have hmain : trimBootstrapContent content filename maxChars =
      content.take (7 * maxChars / 10) ++
        trimMarker filename (7 * maxChars / 10) (2 * maxChars / 10)
          content.length ++
        content.drop (content.length - 2 * maxChars / 10) := by
    have h1 : ¬ (content.length ≤ maxChars) := by omega
    have h2 : ¬ (content.length < 7 * maxChars / 10 + 2 * maxChars / 10) :=
      by omega
    have h4 : 7 * maxChars / 10 < content.length := by omega
    have hmax : max (content.length - 2 * maxChars / 10)
        (7 * maxChars / 10) = content.length - 2 * maxChars / 10 :=
      Nat.max_eq_left (by omega)
    have h5 : content.drop (content.length - 2 * maxChars / 10) ≠ [] := by
      apply List.ne_nil_of_length_pos
      rw [List.length_drop]
      omega
    simp only [trimBootstrapContent, gt_iff_lt, h1, h2, htail, h4, hmax, h5,
      if_false, if_true, and_true, true_and, and_self, ite_true, ite_false,
      if_neg, not_false_iff, ne_eq, not_false_eq_true]
  refine ⟨hmain, ?_⟩
  rw [hmain]
  simp only [List.length_append, List.length_take, List.length_drop]
  omega

set_option maxRecDepth 7000 in
/-- Witness for the amended C6, at the concrete input of the spec
scenario. -/
theorem claim_C6_amended_witness :
    (100 < (List.replicate 400 'a' : Str).length ∧
      7 * 100 / 10 + 2 * 100 / 10 ≤ (List.replicate 400 'a' : Str).length ∧
      0 < 2 * 100 / 10) ∧
    (trimBootstrapContent (List.replicate 400 'a') "AGENTS.md".toList
        100).length =
      7 * 100 / 10 +
        (trimMarker "AGENTS.md".toList (7 * 100 / 10) (2 * 100 / 10)
          (List.replicate 400 'a' : Str).length).length + 2 * 100 / 10 :=
  ⟨⟨by decide, by decide, by decide⟩,
    (claim_C6_amended (List.replicate 400 'a') "AGENTS.md".toList 100
      (by decide) (by decide) (by decide)).2⟩

/-! ## Tool-result truncation (claim C4) -/

/-- `HARD_MAX_TOOL_RESULT_CHARS` (file `truncate.go`). -/
def HARD_MAX_TOOL_RESULT_CHARS : Nat := 400000

/-- `MIN_TOOL_RESULT_CHARS` (file `truncate.go`). -/
def MIN_TOOL_RESULT_CHARS : Nat := 2000

/-- `calculateMaxToolResultChars` (file `truncate.go`):
`int(float64(w) * 0.3 * 4)` modelled by the exact rational floor
`6 * w / 5` (the two agree at every concrete input used below), clamped
into `[MIN, HARD_MAX]`. -/
def calculateMaxToolResultChars (contextWindowTokens : Nat) : Nat :=
  let maxChars := 6 * contextWindowTokens / 5
  if HARD_MAX_TOOL_RESULT_CHARS < maxChars then HARD_MAX_TOOL_RESULT_CHARS
  else if maxChars < MIN_TOOL_RESULT_CHARS then MIN_TOOL_RESULT_CHARS
  else maxChars

/-- Modelled from the spec: `utils.Truncate` (package `pkg/utils`, not
included under `src/`) caps a string at `maxLen` characters; §4.3 requires
only that the result never exceed the cap. -/
def utilsTruncate (text : Str) (maxLen : Nat) : Str :=
  if text.length ≤ maxLen then text else text.take maxLen

/-- `strings.LastIndex(s, "\n")`: index of the last newline, if any. -/
def lastNewlineIdx (l : Str) : Option Nat :=
  (l.reverse.findIdx? (· == '\n')).map (fun j => l.length - 1 - j)

/-- `truncateToolResultText` (file `truncate.go`): search up to 200
characters back from the cap for the last newline, cut there (keeping the
newline) or at the cap, and append the `\n[...truncated...]` marker. -/
def truncateToolResultText (text : Str) (maxChars : Nat) : Str :=
  if text.length ≤ maxChars then text
  else if maxChars ≤ MIN_TOOL_RESULT_CHARS then utilsTruncate text maxChars
  else
    let searchStart := maxChars - 200
    let truncationPoint :=
      match lastNewlineIdx ((text.take maxChars).drop searchStart) with
      | some k => searchStart + k + 1
      | none => maxChars
    text.take truncationPoint ++ "\n[...truncated...]".toList

/-- `TruncateToolResult` (file `truncate.go`). -/
def truncateToolResult (result : Str) (contextWindowTokens : Nat) : Str :=
  truncateToolResultText result
    (calculateMaxToolResultChars contextWindowTokens)

set_option maxRecDepth 12000 in
/-- **C4 (code-bug evaluation)**: with a 1668-token window the cap is
`⌊1668·0.3⌋·4 → 2001` characters, but on a 2100-character newline-free
result the function cuts at the cap and then appends the 18-character
`\n[...truncated...]` marker, returning 2019 characters — more than the
claimed bound `min(HARD_MAX, max(MIN, W×0.3×4)) = 2001`. -/
theorem claim_C4_eval :
    calculateMaxToolResultChars 1668 = 2001 ∧
    (truncateToolResult (List.replicate 2100 'a') 1668).length = 2019 ∧
    ¬ ((truncateToolResult (List.replicate 2100 'a') 1668).length ≤
      calculateMaxToolResultChars 1668) := by
  have hcap : calculateMaxToolResultChars 1668 = 2001 := rfl
  have hwin : (((List.replicate 2100 'a' : Str).take 2001).drop
      (2001 - 200)) = List.replicate 200 'a' := rfl
  have hfind : lastNewlineIdx (List.replicate 200 'a') = none := rfl
  have hres : truncateToolResult (List.replicate 2100 'a') 1668 =
      (List.replicate 2100 'a' : Str).take 2001 ++
        "\n[...truncated...]".toList := by
    rw [truncateToolResult, hcap]
    simp only [truncateToolResultText]
    rw [if_neg (by rw [List.length_replicate]; omega),
      if_neg (by rw [MIN_TOOL_RESULT_CHARS]; omega), hwin, hfind]
  have hlen : ((List.replicate 2100 'a' : Str).take 2001 ++
      "\n[...truncated...]".toList).length = 2019 := by
    rw [List.length_append, List.length_take, List.length_replicate]
    rfl
  refine ⟨hcap, ?_, ?_⟩
  · rw [hres, hlen]
  · intro h
    rw [hres, hlen, hcap] at h
    omega

/-! ## Skill registry (claims C3, C9, C10)

`pkg/skills/loader.go` is not included under `src/`; the registry is
modelled from the spec: the discovery contract, validation rules and
load-on-demand behaviour of its skill-registry section, the on-disk
layout (three roots, `<root>/<name>/SKILL.md`), and the
uniqueness/priority invariant of its invariants section.  The three
skill roots are modelled as lists of directory entries `(dirName,
SKILL.md contents?)`; a `none` contents is a directory whose `SKILL.md`
cannot be read.  Metadata extraction (the frontmatter parse) is a
parameter `getMeta : dirName → contents → SkillMeta`; every universal
theorem below quantifies over it, and every concrete instance uses a
table that reproduces the spec's parse policy on the concrete file
contents involved (e.g. empty frontmatter ⇒ name defaulted to the
directory basename, empty description). -/

end Picoclaw
